import Mathlib

/-!
Shallow embedding of the Tetris game engine from `src/tetris.rs` and proofs
of the specification claims about it.

The embedding keeps the source structure: the shape library (`ShapeMatrix`),
the PRNG and 7-bag randomizer, the board / collision engine, the game
controller (`spawn_piece`, `move_left`, `move_right`, `move_down`, `rotate`,
`hard_drop`, `lock_piece`, `clear_lines`, `reset`) and the bounded text
renderer (`render_to_buffer`, `write_bytes`, `write_number`).
-/

namespace Tetris

/-! ## The embedded program -/

/-- Board width, `BOARD_WIDTH` in the source. -/
def BOARD_WIDTH : Nat := 10

/-- Board height, `BOARD_HEIGHT` in the source. -/
def BOARD_HEIGHT : Nat := 20

/-- The seven tetromino kinds (`TetrominoType` in the source). -/
inductive TetrominoType where
  | I | O | T | S | Z | J | L
  deriving DecidableEq, Repr

instance : Fintype TetrominoType where
  elems := ⟨[TetrominoType.I, TetrominoType.O, TetrominoType.T, TetrominoType.S,
             TetrominoType.Z, TetrominoType.J, TetrominoType.L], by decide⟩
  complete := by intro x; cases x <;> decide

/-- A 4×4 boolean occupancy matrix. -/
def Mat4 : Type := Fin 4 → Fin 4 → Bool

instance : DecidableEq Mat4 := by
  unfold Mat4; infer_instance

/-- Build a matrix from a 4×4 list-of-rows literal (row `i`, column `j`). -/
def matOf (rows : List (List Bool)) : Mat4 :=
  fun i j => ((rows.getD i []).getD j false)

/-- One 90° rotation step of a 4×4 matrix; the source loop sets
`rotated[j][3 - i] = matrix[i][j]`, i.e. entry `(r, c)` of the result is
entry `(3 - c, r)` of the input. -/
def rotate_once (m : Mat4) : Mat4 :=
  fun r c => m (3 - c) r

/-- Precomputed shape matrix for all four rotations (`ShapeMatrix`). -/
structure ShapeMatrix where
  rotations : Fin 4 → Mat4

/-- Source `ShapeMatrix::from_base`: rotation 0 is the base, each next rotation is
one more 90° step. -/
def ShapeMatrix.from_base (base : Mat4) : ShapeMatrix where
  rotations := fun r =>
    match r with
    | ⟨0, _⟩ => base
    | ⟨1, _⟩ => rotate_once base
    | ⟨2, _⟩ => rotate_once (rotate_once base)
    | ⟨3, _⟩ => rotate_once (rotate_once (rotate_once base))

/-- An active tetromino piece (`Tetromino`). -/
structure Tetromino where
  piece_type : TetrominoType
  x : Int
  y : Int
  rotation : Nat
  deriving DecidableEq, Repr

/-- Base occupancy of the I piece. -/
def base_I : Mat4 := matOf
  [[false, false, false, false],
   [true, true, true, true],
   [false, false, false, false],
   [false, false, false, false]]

/-- Base occupancy of the O piece. -/
def base_O : Mat4 := matOf
  [[false, false, false, false],
   [false, true, true, false],
   [false, true, true, false],
   [false, false, false, false]]

/-- Base occupancy of the T piece. -/
def base_T : Mat4 := matOf
  [[false, false, false, false],
   [false, true, false, false],
   [true, true, true, false],
   [false, false, false, false]]

/-- Base occupancy of the S piece. -/
def base_S : Mat4 := matOf
  [[false, false, false, false],
   [false, true, true, false],
   [true, true, false, false],
   [false, false, false, false]]

/-- Base occupancy of the Z piece. -/
def base_Z : Mat4 := matOf
  [[false, false, false, false],
   [true, true, false, false],
   [false, true, true, false],
   [false, false, false, false]]

/-- Base occupancy of the J piece. -/
def base_J : Mat4 := matOf
  [[false, false, false, false],
   [true, false, false, false],
   [true, true, true, false],
   [false, false, false, false]]

/-- Base occupancy of the L piece. -/
def base_L : Mat4 := matOf
  [[false, false, false, false],
   [false, false, true, false],
   [true, true, true, false],
   [false, false, false, false]]

/-- The shape index computed by `Tetromino::get_shape`'s `match`. -/
def shape_index : TetrominoType → Fin 7
  | .I => 0
  | .O => 1
  | .T => 2
  | .S => 3
  | .Z => 4
  | .J => 5
  | .L => 6

/-- Source `Tetromino::SHAPES`: the 7-element shape table, in source order. -/
def SHAPES : Fin 7 → ShapeMatrix
  | ⟨0, _⟩ => ShapeMatrix.from_base base_I
  | ⟨1, _⟩ => ShapeMatrix.from_base base_O
  | ⟨2, _⟩ => ShapeMatrix.from_base base_T
  | ⟨3, _⟩ => ShapeMatrix.from_base base_S
  | ⟨4, _⟩ => ShapeMatrix.from_base base_Z
  | ⟨5, _⟩ => ShapeMatrix.from_base base_J
  | ⟨6, _⟩ => ShapeMatrix.from_base base_L

/-- Source `Tetromino::new`: spawn at the canonical position, rotation 0. -/
def Tetromino.new (t : TetrominoType) : Tetromino where
  piece_type := t
  x := (BOARD_WIDTH / 2 : Nat) - 2
  y := 0
  rotation := 0

/-- Source `Tetromino::get_shape`: look up the matrix for the current rotation
(the source indexes with `rotation % 4`). -/
def Tetromino.get_shape (p : Tetromino) : Mat4 :=
  (SHAPES (shape_index p.piece_type)).rotations ⟨p.rotation % 4, Nat.mod_lt _ (by decide)⟩

/-- Source `Tetromino::get_bounds`: tight bounding box `(min_x, min_y, max_x, max_y)`
of the occupied cells, starting from `(4, 4, 0, 0)`. -/
def get_bounds (shape : Mat4) : Int × Int × Int × Int :=
  (List.finRange 4).foldl
    (fun acc i =>
      (List.finRange 4).foldl
        (fun acc j =>
          let (min_x, min_y, max_x, max_y) := acc
          if shape i j then
            (min min_x (j : Int), min min_y (i : Int),
             max max_x (j : Int), max max_y (i : Int))
          else acc)
        acc)
    (4, 4, 0, 0)

/-- Source `PRNG::next` on a `u64` state: a linear congruential step, wrapping
multiply then wrapping add modulo `2^64`.  The new state is the output. -/
def prng_next (state : Nat) : Nat :=
  (state * 6364136223846793005 % 2 ^ 64 + 1442695040888963407) % 2 ^ 64

/-- Source `PRNG::next_range`: reduce the next output modulo `max`. -/
def prng_next_range (state : Nat) (max : Nat) : Nat × Nat :=
  let s := prng_next state
  (s % max, s)

/-- Source `PRNG::new`: the stored state is `seed.wrapping_add(1)`. -/
def prng_new (seed : Nat) : Nat := (seed + 1) % 2 ^ 64

/-- The board: `BOARD_HEIGHT` rows of `BOARD_WIDTH` boolean cells, row 0 at
the top (`[[bool; BOARD_WIDTH]; BOARD_HEIGHT]`). -/
abbrev Board : Type := List (List Bool)

/-- An all-empty row. -/
def emptyRow : List Bool := List.replicate BOARD_WIDTH false

/-- The all-empty board. -/
def emptyBoard : Board := List.replicate BOARD_HEIGHT emptyRow

/-- Read one board cell by (signed) board coordinates; the source only reads
after an in-bounds check, so the defaults never matter there. -/
def cellAt (b : Board) (board_y board_x : Int) : Bool :=
  (b.getD board_y.toNat []).getD board_x.toNat false

/-- Set one board cell to `true` (the stamping write in `lock_piece`). -/
def setCellTrue (b : Board) (board_y board_x : Int) : Board :=
  b.set board_y.toNat ((b.getD board_y.toNat []).set board_x.toNat true)

/-- Source `TetrisGame::is_out_of_bounds`. -/
def is_out_of_bounds (board_x board_y : Int) : Bool :=
  decide (board_x < 0) || decide (board_x ≥ (BOARD_WIDTH : Int)) ||
  decide (board_y < 0) || decide (board_y ≥ (BOARD_HEIGHT : Int))

/-- The inclusive integer range `a..=b` of a Rust `for` loop, as a list
(empty when `b < a`). -/
def int_range_incl (a b : Int) : List Int :=
  (List.range (b + 1 - a).toNat).map (fun k : Nat => a + (k : Int))

/-- Look up a shape cell at signed indices; `check_collision` and
`lock_piece` only do this inside the tight bounding box, where the indices
are in `[0, 3]`. -/
def shapeAt (m : Mat4) (i j : Int) : Bool :=
  if h : 0 ≤ i ∧ i < 4 ∧ 0 ≤ j ∧ j < 4 then
    m ⟨i.toNat, by omega⟩ ⟨j.toNat, by omega⟩
  else false

/-- Source `TetrisGame::check_collision`: scan the piece's tight bounding box; a
collision is an occupied shape cell that lands out of bounds or on an
occupied board cell. -/
def check_collision (board : Board) (p : Tetromino) : Bool :=
  let shape := p.get_shape
  let min_x := (get_bounds shape).1
  let min_y := (get_bounds shape).2.1
  let max_x := (get_bounds shape).2.2.1
  let max_y := (get_bounds shape).2.2.2
  (int_range_incl min_y max_y).any fun i =>
    (int_range_incl min_x max_x).any fun j =>
      shapeAt shape i j &&
        (is_out_of_bounds (p.x + j) (p.y + i) || cellAt board (p.y + i) (p.x + j))

/-- The whole game state (`TetrisGame`); the PRNG is its `u64` state. -/
structure TetrisGame where
  board : Board
  current_piece : Option Tetromino
  score : Nat
  game_over : Bool
  next_piece_type : TetrominoType
  bag : Fin 7 → TetrominoType
  bag_idx : Nat
  prng : Nat

/-- The bag as initialized in `TetrisGame::new`, in source order. -/
def initBag : Fin 7 → TetrominoType
  | ⟨0, _⟩ => .I
  | ⟨1, _⟩ => .O
  | ⟨2, _⟩ => .T
  | ⟨3, _⟩ => .S
  | ⟨4, _⟩ => .Z
  | ⟨5, _⟩ => .J
  | ⟨6, _⟩ => .L

/-- Exchange bag slots `i` and `j` through a temporary, as the shuffle body
does. -/
def bag_swap (bag : Fin 7 → TetrominoType) (i j : Fin 7) : Fin 7 → TetrominoType :=
  Function.update (Function.update bag i (bag j)) j (bag i)

/-- The Fisher–Yates loop of `TetrisGame::shuffle_bag`, counting the swap
position `i` down; the entry point runs it from position 6. -/
def shuffle_loop : Nat → (Fin 7 → TetrominoType) → Nat → (Fin 7 → TetrominoType) × Nat
  | 0, bag, prng => (bag, prng)
  | n + 1, bag, prng =>
    if h : n + 1 < 7 then
      let r := prng_next_range prng (n + 2)
      shuffle_loop n
        (bag_swap bag ⟨n + 1, h⟩
          ⟨r.1, Nat.lt_of_lt_of_le (Nat.mod_lt _ (by omega)) (by omega)⟩)
        r.2
    else (bag, prng)

/-- Source `TetrisGame::shuffle_bag`: Fisher–Yates over the 7 slots, drawing each
`j` from the PRNG; swaps happen at positions 6 down to 1. -/
def shuffle_bag (bag : Fin 7 → TetrominoType) (prng : Nat) :
    (Fin 7 → TetrominoType) × Nat :=
  shuffle_loop 6 bag prng

/-- Source `TetrisGame::next_piece_from_bag`: reshuffle when the cursor reached the
bag's end, then draw the cursor's piece and advance the cursor. -/
def next_piece_from_bag (g : TetrisGame) : TetrominoType × TetrisGame :=
  let g :=
    if g.bag_idx ≥ 7 then
      { g with bag := (shuffle_bag g.bag g.prng).1
               prng := (shuffle_bag g.bag g.prng).2
               bag_idx := 0 }
    else g
  if h : g.bag_idx < 7 then
    (g.bag ⟨g.bag_idx, h⟩, { g with bag_idx := g.bag_idx + 1 })
  else
    (TetrominoType.I, g)

/-- Source `TetrisGame::spawn_piece`: no-op when the game is over; otherwise build
the next piece at the canonical spawn position, declare game over if it
already collides, else install it and pre-draw the following piece. -/
def spawn_piece (g : TetrisGame) : TetrisGame :=
  if g.game_over then g
  else
    let new_piece := Tetromino.new g.next_piece_type
    if check_collision g.board new_piece then { g with game_over := true }
    else
      { (next_piece_from_bag g).2 with
        current_piece := some new_piece
        next_piece_type := (next_piece_from_bag g).1 }

/-- Source `TetrisGame::move_left`: try the piece one column to the left. -/
def move_left (g : TetrisGame) : Bool × TetrisGame :=
  match g.current_piece with
  | some piece =>
    let piece := { piece with x := piece.x - 1 }
    if !check_collision g.board piece then
      (true, { g with current_piece := some piece })
    else (false, g)
  | none => (false, g)

/-- Source `TetrisGame::move_right`: try the piece one column to the right. -/
def move_right (g : TetrisGame) : Bool × TetrisGame :=
  match g.current_piece with
  | some piece =>
    let piece := { piece with x := piece.x + 1 }
    if !check_collision g.board piece then
      (true, { g with current_piece := some piece })
    else (false, g)
  | none => (false, g)

/-- Source `TetrisGame::rotate`: try the next rotation state; no wall kicks. -/
def rotate (g : TetrisGame) : Bool × TetrisGame :=
  match g.current_piece with
  | some piece =>
    let piece := { piece with rotation := (piece.rotation + 1) % 4 }
    if !check_collision g.board piece then
      (true, { g with current_piece := some piece })
    else (false, g)
  | none => (false, g)

/-- One write step of the stamping loop in `lock_piece`: paint the board
cell under shape cell `(i, j)` when that cell is occupied and in bounds. -/
def stamp_cell (p : Tetromino) (b : Board) (i j : Int) : Board :=
  if shapeAt p.get_shape i j then
    if !is_out_of_bounds (p.x + j) (p.y + i) then
      setCellTrue b (p.y + i) (p.x + j)
    else b
  else b

/-- Stamp every occupied, in-bounds cell of the piece's bounding box onto
the board (the write loop of `lock_piece`). -/
def stamp_board (board : Board) (p : Tetromino) : Board :=
  let shape := p.get_shape
  let min_x := (get_bounds shape).1
  let min_y := (get_bounds shape).2.1
  let max_x := (get_bounds shape).2.2.1
  let max_y := (get_bounds shape).2.2.2
  (int_range_incl min_y max_y).foldl
    (fun b i =>
      (int_range_incl min_x max_x).foldl (fun b j => stamp_cell p b i j) b)
    board

/-- The score increment of `clear_lines`'s `match` (only applied when at
least one line cleared). -/
def line_score : Nat → Nat
  | 1 => 100
  | 2 => 300
  | 3 => 500
  | _ => 800

/-- The scan's row test: all `BOARD_WIDTH` cells of the row read occupied. -/
def row_full (r : List Bool) : Bool :=
  (List.range BOARD_WIDTH).all fun x => r.getD x false

/-- One iteration of the `clear_lines` scan at row `y`: a full row is
counted; a non-full row is moved down to the write cursor. -/
def clear_step (st : Board × Nat × Nat) (y : Nat) : Board × Nat × Nat :=
  let (b, lines_cleared, write_idx) := st
  let line_full := row_full (b.getD y [])
  if line_full then (b, lines_cleared + 1, write_idx)
  else
    let write_idx := write_idx - 1
    (if write_idx ≠ y then b.set write_idx (b.getD y []) else b,
     lines_cleared, write_idx)

/-- The bottom-to-top compaction scan of `clear_lines` (rows
`BOARD_HEIGHT-1` down to `0`), returning the compacted board, the number of
cleared lines and the final write cursor. -/
def clear_scan (b : Board) : Board × Nat × Nat :=
  ((List.range BOARD_HEIGHT).reverse).foldl clear_step (b, 0, BOARD_HEIGHT)

/-- The zero-fill loop of `clear_lines`: blank every row above the write
cursor (rows `write_idx - 1` down to `0`). -/
def zero_fill (b : Board) (write_idx : Nat) : Board :=
  ((List.range write_idx).reverse).foldl
    (fun b idx => b.set idx (List.replicate BOARD_WIDTH false)) b

/-- Source `TetrisGame::clear_lines`: compaction scan, zero fill, then the score
update. -/
def clear_lines (g : TetrisGame) : TetrisGame :=
  let (b, lines_cleared, write_idx) := clear_scan g.board
  let b := zero_fill b write_idx
  { g with
    board := b
    score := if lines_cleared > 0 then g.score + line_score lines_cleared else g.score }

/-- Source `TetrisGame::lock_piece`: take the piece out, stamp it onto the board,
clear lines, then spawn the next piece. -/
def lock_piece (g : TetrisGame) : TetrisGame :=
  match g.current_piece with
  | some piece =>
    let g := { g with current_piece := none, board := stamp_board g.board piece }
    spawn_piece (clear_lines g)
  | none => g

/-- Source `TetrisGame::move_down`: try the piece one row down; on collision lock
it in place instead and report `false`. -/
def move_down (g : TetrisGame) : Bool × TetrisGame :=
  match g.current_piece with
  | some piece =>
    let piece := { piece with y := piece.y + 1 }
    if !check_collision g.board piece then
      (true, { g with current_piece := some piece })
    else (false, lock_piece g)
  | none => (false, g)

/-- The `while self.move_down() {}` loop of `hard_drop`, with explicit
fuel; `hard_drop_fuel_stable` shows 25 iterations always suffice. -/
def hard_drop_fuel : Nat → TetrisGame → TetrisGame
  | 0, g => g
  | n + 1, g =>
    let (moved, g') := move_down g
    if moved then hard_drop_fuel n g' else g'

/-- Source `TetrisGame::hard_drop`: drop until the piece locks. -/
def hard_drop (g : TetrisGame) : TetrisGame := hard_drop_fuel 25 g

/-- Source `TetrisGame::reset`: blank the board, zero the score, clear game over,
drop the active piece, then spawn; the PRNG/bag state is kept. -/
def reset (g : TetrisGame) : TetrisGame :=
  spawn_piece
    { g with
      board := emptyBoard
      current_piece := none
      score := 0
      game_over := false }

/-- Source `TetrisGame::new`, with the time/address seed mix abstracted as a
parameter: empty board, no piece, identity-ordered bag with the cursor at
the end, then one pre-draw for `next_piece_type`. -/
def new_game (seed : Nat) : TetrisGame :=
  let g : TetrisGame :=
    { board := emptyBoard
      current_piece := none
      score := 0
      game_over := false
      next_piece_type := TetrominoType.I
      bag := initBag
      bag_idx := 7
      prng := prng_new seed }
  { (next_piece_from_bag g).2 with next_piece_type := (next_piece_from_bag g).1 }

/-- The reachable game states: a fresh instance (`create_tetris_inner`
constructs the game and immediately spawns) followed by any sequence of
the externally invokable operations. -/
inductive Reachable : TetrisGame → Prop where
  | init (seed : Nat) : Reachable (spawn_piece (new_game seed))
  | left {g} : Reachable g → Reachable (move_left g).2
  | right {g} : Reachable g → Reachable (move_right g).2
  | down {g} : Reachable g → Reachable (move_down g).2
  | rot {g} : Reachable g → Reachable (rotate g).2
  | drop {g} : Reachable g → Reachable (hard_drop g)
  | reset_ {g} : Reachable g → Reachable (reset g)

/-- The number of full rows of a board. -/
def full_row_count (b : Board) : Nat := b.countP row_full

/-- Witness for C1: a board whose two bottom rows are full except for the
second-to-last, which is completely full — concretely, 18 empty rows, one
full row, one row missing one cell; clearing removes the full row. -/
def c1WitnessGame : TetrisGame :=
  { board := List.replicate 18 emptyRow ++
      [List.replicate 10 true, List.replicate 9 true ++ [false]]
    current_piece := none
    score := 0
    game_over := false
    next_piece_type := TetrominoType.I
    bag := initBag
    bag_idx := 0
    prng := 0 }

/-- The scoring table exactly as the claim words it: 0 lines score 0,
1 line 100, 2 lines 300, 3 lines 500, 4 lines 800, and any count above 4
also maps to the 4-line value 800. -/
def claim_line_points (k : Nat) : Nat :=
  if k = 0 then 0
  else if k = 1 then 100
  else if k = 2 then 300
  else if k = 3 then 500
  else 800

/-- A run of `n` consecutive draws from the randomizer, collecting the pieces. -/
def draw_pieces : Nat → TetrisGame → List TetrominoType × TetrisGame
  | 0, g => ([], g)
  | n + 1, g =>
    let (p, g') := next_piece_from_bag g
    let (ps, g'') := draw_pieces n g'
    (p :: ps, g'')

/-- Witness game for C2: a fresh-style state with the cursor at the bag
boundary. -/
def c2WitnessGame : TetrisGame :=
  { board := emptyBoard
    current_piece := none
    score := 0
    game_over := false
    next_piece_type := TetrominoType.I
    bag := initBag
    bag_idx := 7
    prng := 12345 }

/-- Witness piece for C3: an O piece resting on the floor. -/
def c3Piece : Tetromino :=
  { piece_type := TetrominoType.O, x := 4, y := 17, rotation := 0 }

/-- Witness game for C3. -/
def c3WitnessGame : TetrisGame :=
  { board := emptyBoard
    current_piece := some c3Piece
    score := 0
    game_over := false
    next_piece_type := TetrominoType.T
    bag := initBag
    bag_idx := 0
    prng := 0 }

/-- The rotation index used by `get_shape`. -/
def rot_fin (p : Tetromino) : Fin 4 := ⟨p.rotation % 4, Nat.mod_lt _ (by decide)⟩

/-- The state invariant: a finished game has no active piece, and an active
piece never collides with the board it floats over. -/
def GameInv (g : TetrisGame) : Prop :=
  (g.game_over = true → g.current_piece = none) ∧
  (∀ p, g.current_piece = some p → check_collision g.board p = false)

/-- Witness board for C5: top two rows fully occupied. -/
def c5WitnessGame : TetrisGame :=
  { board := [List.replicate 10 true, List.replicate 10 true] ++
      List.replicate 18 emptyRow
    current_piece := none
    score := 0
    game_over := false
    next_piece_type := TetrominoType.I
    bag := initBag
    bag_idx := 0
    prng := 0 }

/-- The bounds-checked write loop of `TetrisGame::write_bytes`: write while
there is room, stop at the first byte that does not fit. -/
def write_bytes_loop (buffer : List Nat) (pos : Nat) :
    List Nat → Nat → List Nat × Nat
  | [], written => (buffer, written)
  | byte :: rest, written =>
    if pos + written < buffer.length then
      write_bytes_loop (buffer.set (pos + written) byte) pos rest (written + 1)
    else (buffer, written)

/-- Source `TetrisGame::write_bytes`. -/
def write_bytes (buffer : List Nat) (pos : Nat) (bytes : List Nat) :
    List Nat × Nat :=
  write_bytes_loop buffer pos bytes 0

/-- The digit-collection loop of `write_number`: little-endian decimal
digits, at most 10 of them. -/
def digits_loop : Nat → Nat → List Nat
  | _, 0 => []
  | num, cap + 1 =>
    if num > 0 then (num % 10 + 48) :: digits_loop (num / 10) cap else []

/-- The bounds-checked digit-write loop of `write_number` (it does not
break, it just skips writes once the buffer is full). -/
def write_digits_loop (buffer : List Nat) (pos : Nat) :
    List Nat → Nat → List Nat × Nat
  | [], written => (buffer, written)
  | d :: rest, written =>
    if pos + written < buffer.length then
      write_digits_loop (buffer.set (pos + written) d) pos rest (written + 1)
    else
      write_digits_loop buffer pos rest written

/-- Source `TetrisGame::write_number`: collect the decimal digits (a lone `0` for
zero), then write them most-significant first with bounds checks. -/
def write_number (buffer : List Nat) (pos : Nat) (num : Nat) :
    List Nat × Nat :=
  let digits := if num = 0 then [48] else digits_loop num 10
  write_digits_loop buffer pos digits.reverse 0

/-- Advance the output cursor past one bounds-checked byte-string write. -/
def wr (st : List Nat × Nat) (bytes : List Nat) : List Nat × Nat :=
  let r := write_bytes st.1 st.2 bytes
  (r.1, st.2 + r.2)

/-- Advance the output cursor past one bounds-checked number write. -/
def wrnum (st : List Nat × Nat) (num : Nat) : List Nat × Nat :=
  let r := write_number st.1 st.2 num
  (r.1, st.2 + r.2)

/-- UTF-8 bytes of the border and cell glyphs and the literal texts. -/
def top_border_g : List Nat := [0xE2, 0x95, 0x94]

def horizontal_g : List Nat := [0xE2, 0x95, 0x90]

def top_right_g : List Nat := [0xE2, 0x95, 0x97, 10]

def left_border_g : List Nat := [0xE2, 0x95, 0x91]

def right_border_g : List Nat := [0xE2, 0x95, 0x91, 10]

def filled_g : List Nat := [0xE2, 0x96, 0x88, 0xE2, 0x96, 0x88]

def empty_g : List Nat := [32, 32]

def bottom_left_g : List Nat := [0xE2, 0x95, 0x9A]

def bottom_right_g : List Nat := [0xE2, 0x95, 0x9D, 10]

def score_label_g : List Nat := [83, 99, 111, 114, 101, 58, 32]

def newline_g : List Nat := [10]

def game_over_g : List Nat := [71, 65, 77, 69, 32, 79, 86, 69, 82, 33, 10]

/-- One full-width run of doubled horizontal border glyphs. -/
def render_border_fold (st : List Nat × Nat) : List Nat × Nat :=
  (List.range BOARD_WIDTH).foldl
    (fun st _ => wr (wr st horizontal_g) horizontal_g) st

/-- One board row: left border, the cells, right border. -/
def render_row (st : List Nat × Nat) (row : List Bool) : List Nat × Nat :=
  wr (row.foldl (fun st cell => wr st (if cell then filled_g else empty_g))
    (wr st left_border_g)) right_border_g

/-- All board rows. -/
def render_rows (st : List Nat × Nat) (db : Board) : List Nat × Nat :=
  db.foldl render_row st

/-- Source `TetrisGame::render_to_buffer`: blank the buffer, overlay the active
piece on a copy of the board, then emit the bordered grid, the score line
and the game-over line, every write bounds-checked.  Returns the filled
buffer and the byte count. -/
def render_to_buffer (g : TetrisGame) (buffer : List Nat) : List Nat × Nat :=
  let buffer := buffer.map fun _ => 32
  let display_board : Board :=
    match g.current_piece with
    | some piece => stamp_board g.board piece
    | none => g.board
  let st : List Nat × Nat := (buffer, 0)
  let st := wr st top_border_g
  let st := render_border_fold st
  let st := wr st top_right_g
  let st := render_rows st display_board
  let st := wr st bottom_left_g
  let st := render_border_fold st
  let st := wr st bottom_right_g
  let st := wr st score_label_g
  let st := wrnum st g.score
  let st := wr st newline_g
  if g.game_over then wr st game_over_g else st

/-- Invariant of the output state: the buffer keeps its capacity and the
cursor never passes it. -/
def BufInv (L : Nat) (st : List Nat × Nat) : Prop :=
  st.1.length = L ∧ st.2 ≤ L

/-! ## Verification of the claims -/

/-- Setting a slot at or beyond `n` leaves the first `n` elements alone. -/
lemma take_set_of_le {α : Type} (l : List α) (i n : Nat) (a : α) (h : n ≤ i) :
    (l.set i a).take n = l.take n := by
  apply List.ext_getElem?
  intro m
  rw [List.getElem?_take, List.getElem?_take]
  split
  · rw [List.getElem?_set]
    split
    · omega
    · rfl
  · rfl

/-- Dropping up to a freshly set slot exposes the new value. -/
lemma drop_set_self {α : Type} (l : List α) (i : Nat) (a : α) (h : i < l.length) :
    (l.set i a).drop i = a :: l.drop (i + 1) := by
  rw [List.drop_eq_getElem_cons (by simpa using h)]
  congr 1
  · rw [List.getElem_set]
    simp
  · rw [List.drop_set]
    simp

/-- Invariant-carrying description of the compaction scan: running the scan
over the top `n` rows (having already handled the rows from `w` down) adds
the full rows among them to the counter, moves the write cursor up by the
number of non-full rows, and lays those non-full rows out in order just
above the cursor. -/
lemma clear_scan_aux :
    ∀ (n : Nat) (b : Board) (c w : Nat),
      b.length = BOARD_HEIGHT → n ≤ w → w ≤ BOARD_HEIGHT →
      ∃ B : Board,
        (List.range n).reverse.foldl clear_step (b, c, w) =
          (B, c + (b.take n).countP row_full,
            w - (b.take n).countP (fun r => !row_full r)) ∧
        B.length = BOARD_HEIGHT ∧
        B.drop (w - (b.take n).countP (fun r => !row_full r)) =
          (b.take n).filter (fun r => !row_full r) ++ b.drop w := by
  intro n
  induction n with
  | zero =>
    intro b c w hb hnw hw
    exact ⟨b, by simp, hb, by simp⟩
  | succ n ih =>
    intro b c w hb hnw hw
    have hn20 : n < b.length := by omega
    have hbn : b.getD n [] = b[n] := List.getD_eq_getElem b [] hn20
    have hbn2 : b[n]?.getD [] = b[n] := by
      rw [List.getElem?_eq_getElem hn20]
      rfl
    have htake : b.take (n + 1) = b.take n ++ [b[n]] := by
      rw [List.take_succ, List.getElem?_eq_getElem hn20]
      rfl
    rw [List.range_succ, List.reverse_append]
    simp only [List.reverse_cons, List.reverse_nil, List.nil_append,
      List.singleton_append, List.foldl_cons]
    by_cases hfull : row_full (b[n]) = true
    · -- the row is full: it is counted and skipped
      have hstep : clear_step (b, c, w) n = (b, c + 1, w) := by
        simp [clear_step, hbn, hbn2, hfull]
      rw [hstep]
      obtain ⟨B, hfold, hlen, hdrop⟩ := ih b (c + 1) w hb (by omega) hw
      have hcf : (b.take (n + 1)).countP row_full =
          (b.take n).countP row_full + 1 := by
        rw [htake, List.countP_append]
        simp [hfull]
      have hcnf : (b.take (n + 1)).countP (fun r => !row_full r) =
          (b.take n).countP (fun r => !row_full r) := by
        rw [htake, List.countP_append]
        simp [hfull]
      have hfil : (b.take (n + 1)).filter (fun r => !row_full r) =
          (b.take n).filter (fun r => !row_full r) := by
        rw [htake, List.filter_append]
        simp [hfull]
      refine ⟨B, ?_, hlen, ?_⟩
      · rw [hcf, hcnf,
          show c + ((b.take n).countP row_full + 1) =
            c + 1 + (b.take n).countP row_full from by omega]
        exact hfold
      · rw [hcnf, hfil]
        exact hdrop
    · -- the row is not full: it moves down to the (decremented) cursor
      have hfull' : row_full (b[n]) = false := by
        simpa using hfull
      have hw1 : 1 ≤ w := by omega
      have hcf : (b.take (n + 1)).countP row_full =
          (b.take n).countP row_full := by
        rw [htake, List.countP_append]
        simp [hfull']
      have hcnf : (b.take (n + 1)).countP (fun r => !row_full r) =
          (b.take n).countP (fun r => !row_full r) + 1 := by
        rw [htake, List.countP_append]
        simp [hfull']
      have hfil : (b.take (n + 1)).filter (fun r => !row_full r) =
          (b.take n).filter (fun r => !row_full r) ++ [b[n]] := by
        rw [htake, List.filter_append]
        simp [hfull']
      by_cases hwn : w - 1 = n
      · -- the cursor lands on the row itself: no copy is needed
        have hwsucc : w = n + 1 := by omega
        have hstep : clear_step (b, c, w) n = (b, c, n) := by
          simp [clear_step, hbn, hbn2, hfull', hwn]
        rw [hstep]
        obtain ⟨B, hfold, hlen, hdrop⟩ := ih b c n hb le_rfl (by omega)
        refine ⟨B, ?_, hlen, ?_⟩
        · rw [hcf, hcnf, hwsucc,
            show n + 1 - ((b.take n).countP (fun r => !row_full r) + 1) =
              n - (b.take n).countP (fun r => !row_full r) from by omega]
          exact hfold
        · have hidx : w - ((b.take n).countP (fun r => !row_full r) + 1) =
              n - (b.take n).countP (fun r => !row_full r) := by omega
          rw [hcnf, hfil, hidx, hdrop, hwsucc]
          rw [List.drop_eq_getElem_cons hn20]
          simp
      · -- the cursor is strictly above the row: copy the row up to it
        have hlt : n < w - 1 := by omega
        have hstep : clear_step (b, c, w) n =
            (b.set (w - 1) (b[n]), c, w - 1) := by
          simp [clear_step, hbn, hbn2, hfull', hwn]
        rw [hstep]
        have hlen' : (b.set (w - 1) (b[n])).length = BOARD_HEIGHT := by
          simpa using hb
        obtain ⟨B, hfold, hlen, hdrop⟩ :=
          ih (b.set (w - 1) (b[n])) c (w - 1) hlen' (by omega) (by omega)
        have htk : (b.set (w - 1) (b[n])).take n = b.take n :=
          take_set_of_le _ _ _ _ (by omega)
        have hdp : (b.set (w - 1) (b[n])).drop (w - 1) = b[n] :: b.drop w := by
          rw [drop_set_self _ _ _ (by omega), show w - 1 + 1 = w from by omega]
        rw [htk] at hfold
        refine ⟨B, ?_, hlen, ?_⟩
        · rw [hcf, hcnf,
            show w - ((b.take n).countP (fun r => !row_full r) + 1) =
              w - 1 - (b.take n).countP (fun r => !row_full r) from by omega]
          exact hfold
        · rw [htk] at hdrop
          have hidx : w - ((b.take n).countP (fun r => !row_full r) + 1) =
              w - 1 - (b.take n).countP (fun r => !row_full r) := by omega
          rw [hcnf, hfil, hidx, hdrop, hdp]
          simp

/-- The zero-fill loop blanks exactly the rows above the write cursor. -/
lemma zero_fill_eq :
    ∀ (w : Nat) (b : Board), w ≤ b.length →
      zero_fill b w = List.replicate w emptyRow ++ b.drop w := by
  intro w
  induction w with
  | zero =>
    intro b _
    simp [zero_fill]
  | succ w ih =>
    intro b hw
    have hstep : zero_fill b (w + 1) = zero_fill (b.set w emptyRow) w := by
      rw [zero_fill, List.range_succ, List.reverse_append]
      simp only [List.reverse_cons, List.reverse_nil, List.nil_append, List.foldl_cons]
      rfl
    rw [hstep, ih _ (by simpa using Nat.le_of_succ_le hw)]
    rw [drop_set_self _ _ _ (by omega)]
    rw [List.replicate_succ' w emptyRow]
    simp

/-- Bridge between the two spellings of "not full" produced by
`List.length_eq_countP_add_countP`. -/
lemma countP_not_row_full (l : List (List Bool)) :
    l.countP (fun a => decide ¬row_full a = true) =
      l.countP (fun r => !row_full r) := by
  apply List.countP_congr
  intro a _
  cases h : row_full a <;> simp [h]

/-- Full description of `clear_scan` on a well-formed board. -/
lemma clear_scan_spec (b : Board) (hb : b.length = BOARD_HEIGHT) :
    ∃ B : Board,
      clear_scan b = (B, full_row_count b, BOARD_HEIGHT - b.countP (fun r => !row_full r)) ∧
      B.length = BOARD_HEIGHT ∧
      B.drop (BOARD_HEIGHT - b.countP (fun r => !row_full r)) =
        b.filter (fun r => !row_full r) ∧
      BOARD_HEIGHT - b.countP (fun r => !row_full r) = full_row_count b := by
  obtain ⟨B, hfold, hlen, hdrop⟩ :=
    clear_scan_aux BOARD_HEIGHT b 0 BOARD_HEIGHT hb (le_refl _) (le_refl _)
  have htake : b.take BOARD_HEIGHT = b := by
    rw [← hb]
    exact List.take_length b
  have hdropall : b.drop BOARD_HEIGHT = [] := by
    apply List.drop_eq_nil_of_le
    omega
  rw [htake] at hfold hdrop
  rw [hdropall] at hdrop
  have hcount : BOARD_HEIGHT - b.countP (fun r => !row_full r) = full_row_count b := by
    have := List.length_eq_countP_add_countP row_full b
    rw [countP_not_row_full] at this
    unfold full_row_count
    omega
  refine ⟨B, ?_, hlen, by simpa using hdrop, hcount⟩
  rw [clear_scan]
  rw [hfold]
  simp [full_row_count]

/-- C6: for every tetromino kind, applying the single 90° rotation four
times to its base 4×4 occupancy matrix yields the original matrix, and in
the precomputed table, rotating rotation state 3 once more equals rotation
state 0. -/
theorem rotate_four_times_id :
    ∀ (t : TetrominoType) (i j : Fin 4),
      rotate_once (rotate_once (rotate_once (rotate_once
          ((SHAPES (shape_index t)).rotations 0)))) i j =
        (SHAPES (shape_index t)).rotations 0 i j ∧
      rotate_once ((SHAPES (shape_index t)).rotations 3) i j =
        (SHAPES (shape_index t)).rotations 0 i j := by
  decide

/-- C1: on a (well-formed, 20-row) board, `clear_lines` produces exactly
`k` all-empty rows at the top, where `k` is the number of full rows,
followed by the non-full rows unchanged and in their original relative
order, compacted to the bottom. -/
theorem clear_lines_board_spec (g : TetrisGame) (hb : g.board.length = BOARD_HEIGHT) :
    (clear_lines g).board =
      List.replicate (full_row_count g.board) emptyRow ++
        g.board.filter (fun r => !row_full r) := by
  obtain ⟨B, hscan, hlen, hdrop, hcount⟩ := clear_scan_spec g.board hb
  unfold clear_lines
  rw [hscan]
  dsimp only
  rw [zero_fill_eq _ _ (by rw [hlen]; omega), hdrop, hcount]

theorem clear_lines_board_spec_witness :
    c1WitnessGame.board.length = BOARD_HEIGHT ∧
    (clear_lines c1WitnessGame).board =
      List.replicate (full_row_count c1WitnessGame.board) emptyRow ++
        c1WitnessGame.board.filter (fun r => !row_full r) :=
  ⟨by decide, clear_lines_board_spec c1WitnessGame (by decide)⟩

/-- C8: `clear_lines` (the scoring step of every lock event) adds exactly
`claim_line_points k` to the score, where `k` is the number of full rows:
100 for 1, 300 for 2, 500 for 3, 800 for 4, 0 for none, and 800 for any
(unreachable) count above 4. -/
theorem clear_lines_score_spec (g : TetrisGame) (hb : g.board.length = BOARD_HEIGHT) :
    (clear_lines g).score = g.score + claim_line_points (full_row_count g.board) := by
  obtain ⟨B, hscan, hlen, hdrop, hcount⟩ := clear_scan_spec g.board hb
  unfold clear_lines
  rw [hscan]
  dsimp only
  rcases hk : full_row_count g.board with _ | _ | _ | _ | k <;>
    simp [claim_line_points, line_score]

theorem clear_lines_score_spec_witness :
    c1WitnessGame.board.length = BOARD_HEIGHT ∧
    (clear_lines c1WitnessGame).score =
      c1WitnessGame.score + claim_line_points (full_row_count c1WitnessGame.board) :=
  ⟨by decide, clear_lines_score_spec c1WitnessGame (by decide)⟩

/-- The three-assignment swap of the shuffle body is composition with the
transposition of the two indices. -/
lemma bag_swap_comp (bag : Fin 7 → TetrominoType) (i j : Fin 7) :
    bag_swap bag i j = bag ∘ (Equiv.swap i j) := by
  funext x
  simp only [bag_swap, Function.update_apply, Function.comp_apply,
    Equiv.swap_apply_def]
  rcases eq_or_ne x i with rfl | hxi
  · rcases eq_or_ne x j with rfl | hxj
    · simp
    · simp [hxj]
  · rcases eq_or_ne x j with rfl | hxj
    · simp [hxi]
    · simp [hxi, hxj]

/-- Every partial run of the Fisher–Yates loop keeps the bag a bijection
(each kind in exactly one slot). -/
lemma shuffle_loop_bijective :
    ∀ (n : Nat) (bag : Fin 7 → TetrominoType) (prng : Nat),
      Function.Bijective bag → Function.Bijective (shuffle_loop n bag prng).1 := by
  intro n
  induction n with
  | zero => intro bag prng h; exact h
  | succ n ih =>
    intro bag prng h
    by_cases h7 : n + 1 < 7
    · rw [shuffle_loop, dif_pos h7]
      exact ih _ _ (by rw [bag_swap_comp]; exact h.comp (Equiv.swap _ _).bijective)
    · rw [shuffle_loop, dif_neg h7]
      exact h

/-- The definition `shuffle_bag` keeps the bag a bijection. -/
lemma shuffle_bag_bijective (bag : Fin 7 → TetrominoType) (prng : Nat)
    (h : Function.Bijective bag) : Function.Bijective (shuffle_bag bag prng).1 :=
  shuffle_loop_bijective 6 bag prng h

/-- A bijective bag, listed out over all 7 slots, holds each kind exactly
once. -/
lemma count_map_finRange_of_bijective (f : Fin 7 → TetrominoType)
    (hf : Function.Bijective f) (t : TetrominoType) :
    ((List.finRange 7).map f).count t = 1 := by
  apply List.count_eq_one_of_mem
  · exact (List.nodup_finRange 7).map hf.injective
  · obtain ⟨i, hi⟩ := hf.surjective t
    exact List.mem_map.mpr ⟨i, List.mem_finRange i, hi⟩

/-- C2: starting at a bag boundary (cursor at capacity 7), the next 7 draws
from `next_piece_from_bag` return each of the 7 tetromino kinds exactly
once, and the bag reshuffled at that boundary again holds each kind in
exactly one slot. -/
theorem bag_boundary_draws_permutation (g : TetrisGame)
    (hidx : g.bag_idx = 7) (hbag : Function.Bijective g.bag) :
    (∀ t : TetrominoType, ((draw_pieces 7 g).1).count t = 1) ∧
      Function.Bijective (shuffle_bag g.bag g.prng).1 := by
  have hshuf := shuffle_bag_bijective g.bag g.prng hbag
  constructor
  · intro t
    have hfr : (List.finRange 7 : List (Fin 7)) = [0, 1, 2, 3, 4, 5, 6] := by decide
    have hlist : (draw_pieces 7 g).1 =
        (List.finRange 7).map (shuffle_bag g.bag g.prng).1 := by
      rw [hfr]
      simp [draw_pieces, next_piece_from_bag, hidx]
    rw [hlist]
    exact count_map_finRange_of_bijective _ hshuf t
  · exact hshuf

theorem bag_boundary_draws_permutation_witness :
    c2WitnessGame.bag_idx = 7 ∧ Function.Bijective c2WitnessGame.bag ∧
      ((∀ t : TetrominoType, ((draw_pieces 7 c2WitnessGame).1).count t = 1) ∧
        Function.Bijective (shuffle_bag c2WitnessGame.bag c2WitnessGame.prng).1) :=
  ⟨rfl, by decide, bag_boundary_draws_permutation c2WitnessGame rfl (by decide)⟩

/-- C3: with an active piece, `move_down` tests the piece translated one
row down: if that does not collide the translated piece is committed and
the call reports `true` (moved); if it collides, the piece is locked — the
board is stamped with the piece at its pre-move position, lines cleared,
next piece spawned — and the call reports `false` (locked).  With no
active piece it reports `false` and changes nothing. -/
theorem move_down_spec (g : TetrisGame) :
    (g.current_piece = none → move_down g = (false, g)) ∧
    ∀ p : Tetromino, g.current_piece = some p →
      (check_collision g.board { p with y := p.y + 1 } = false →
        move_down g = (true, { g with current_piece := some { p with y := p.y + 1 } })) ∧
      (check_collision g.board { p with y := p.y + 1 } = true →
        move_down g = (false, lock_piece g) ∧
        lock_piece g =
          spawn_piece (clear_lines
            { g with current_piece := none, board := stamp_board g.board p })) := by
  constructor
  · intro h
    simp [move_down, h]
  · intro p hp
    constructor
    · intro hcol
      simp [move_down, hp, hcol]
    · intro hcol
      constructor
      · simp [move_down, hp, hcol]
      · simp [lock_piece, hp]

theorem move_down_spec_witness :
    c3WitnessGame.current_piece = some c3Piece ∧
    check_collision c3WitnessGame.board { c3Piece with y := c3Piece.y + 1 } = true ∧
    (move_down c3WitnessGame = (false, lock_piece c3WitnessGame) ∧
      lock_piece c3WitnessGame =
        spawn_piece (clear_lines
          { c3WitnessGame with
            current_piece := none
            board := stamp_board c3WitnessGame.board c3Piece })) :=
  ⟨rfl, by decide,
    ((move_down_spec c3WitnessGame).2 c3Piece rfl).2 (by decide)⟩

/-- Drawing from the bag touches only the bag, its cursor and the PRNG. -/
lemma next_piece_from_bag_fields (g : TetrisGame) :
    (next_piece_from_bag g).2.board = g.board ∧
    (next_piece_from_bag g).2.current_piece = g.current_piece ∧
    (next_piece_from_bag g).2.score = g.score ∧
    (next_piece_from_bag g).2.game_over = g.game_over ∧
    (next_piece_from_bag g).2.next_piece_type = g.next_piece_type := by
  unfold next_piece_from_bag
  dsimp only
  split <;> split <;> simp_all

/-- No freshly spawned piece collides with the empty board. -/
lemma no_spawn_collision_on_empty :
    ∀ t : TetrominoType, check_collision emptyBoard (Tetromino.new t) = false := by
  decide

/-- Spawning onto an empty, not-game-over state always installs a piece and
keeps the other observable fields. -/
lemma spawn_piece_on_empty (g : TetrisGame) (hb : g.board = emptyBoard)
    (hgo : g.game_over = false) :
    (spawn_piece g).board = emptyBoard ∧
    (spawn_piece g).score = g.score ∧
    (spawn_piece g).game_over = false ∧
    (spawn_piece g).current_piece = some (Tetromino.new g.next_piece_type) := by
  obtain ⟨h1, h2, h3, h4, h5⟩ := next_piece_from_bag_fields g
  unfold spawn_piece
  rw [hgo, hb]
  simp [no_spawn_collision_on_empty, h1, h2, h3, h4, h5, hb, hgo]

/-- All observable fields of a state just after `reset`. -/
lemma reset_fresh (g : TetrisGame) :
    (reset g).board = emptyBoard ∧ (reset g).score = 0 ∧
    (reset g).game_over = false ∧
    (reset g).current_piece = some (Tetromino.new g.next_piece_type) := by
  unfold reset
  exact spawn_piece_on_empty _ rfl rfl

/-- C9: calling `reset` twice in a row yields the same fresh observable
state as calling it once — board empty, score 0, game over cleared, and an
active piece present. -/
theorem reset_idempotent_observable (g : TetrisGame) :
    ((reset g).board = emptyBoard ∧ (reset g).score = 0 ∧
      (reset g).game_over = false ∧ ∃ p, (reset g).current_piece = some p) ∧
    ((reset (reset g)).board = emptyBoard ∧ (reset (reset g)).score = 0 ∧
      (reset (reset g)).game_over = false ∧
      ∃ p, (reset (reset g)).current_piece = some p) := by
  obtain ⟨h1, h2, h3, h4⟩ := reset_fresh g
  obtain ⟨h1', h2', h3', h4'⟩ := reset_fresh (reset g)
  exact ⟨⟨h1, h2, h3, _, h4⟩, ⟨h1', h2', h3', _, h4'⟩⟩

/-- Membership in the inclusive integer range of a Rust `for` loop. -/
lemma mem_int_range_incl {a b x : Int} :
    x ∈ int_range_incl a b ↔ a ≤ x ∧ x ≤ b := by
  unfold int_range_incl
  rw [List.mem_map]
  constructor
  · rintro ⟨k, hk, hx⟩
    rw [List.mem_range] at hk
    omega
  · rintro ⟨h1, h2⟩
    refine ⟨(x - a).toNat, List.mem_range.mpr (by omega), ?_⟩
    omega

/-- Shape lookup at the coercion of in-range indices is the plain lookup. -/
lemma shapeAt_coe (m : Mat4) (i j : Fin 4) :
    shapeAt m (i : Int) (j : Int) = m i j := by
  unfold shapeAt
  rw [dif_pos (by omega)]
  congr 1

/-- A positive shape lookup forces the indices in range and gives back the
matrix entry. -/
lemma shapeAt_eq_true_elim {m : Mat4} {i j : Int} (h : shapeAt m i j = true) :
    ∃ (i' j' : Fin 4), (i' : Int) = i ∧ (j' : Int) = j ∧ m i' j' = true := by
  unfold shapeAt at h
  split at h
  · next hb =>
    exact ⟨⟨i.toNat, by omega⟩, ⟨j.toNat, by omega⟩, by simp; omega, by simp; omega, h⟩
  · exact absurd h (by simp)

/-- Every occupied cell of every shape lies inside the tight bounding box
computed by `get_bounds`. -/
lemma shape_cell_in_bounds :
    ∀ (t : TetrominoType) (r : Fin 4) (i j : Fin 4),
      (SHAPES (shape_index t)).rotations r i j = true →
      ((get_bounds ((SHAPES (shape_index t)).rotations r)).1 ≤ (j : Int) ∧
       (get_bounds ((SHAPES (shape_index t)).rotations r)).2.1 ≤ (i : Int) ∧
       (j : Int) ≤ (get_bounds ((SHAPES (shape_index t)).rotations r)).2.2.1 ∧
       (i : Int) ≤ (get_bounds ((SHAPES (shape_index t)).rotations r)).2.2.2) := by
  decide

/-- Every shape in the table has at least one occupied cell. -/
lemma shape_nonempty :
    ∀ (t : TetrominoType) (r : Fin 4),
      ∃ i j : Fin 4, (SHAPES (shape_index t)).rotations r i j = true := by
  decide

lemma get_shape_eq (p : Tetromino) :
    p.get_shape = (SHAPES (shape_index p.piece_type)).rotations (rot_fin p) := rfl

/-- The definition `check_collision` returns `false` exactly when every occupied cell of
the active piece lands in bounds on a free board cell. -/
lemma check_collision_false_iff (board : Board) (p : Tetromino) :
    check_collision board p = false ↔
      ∀ i j : Fin 4, p.get_shape i j = true →
        is_out_of_bounds (p.x + (j : Int)) (p.y + (i : Int)) = false ∧
        cellAt board (p.y + (i : Int)) (p.x + (j : Int)) = false := by
  unfold check_collision
  dsimp only
  simp only [List.any_eq_false, Bool.not_eq_true]
  constructor
  · intro h i j hij
    have hr := shape_cell_in_bounds p.piece_type (rot_fin p) i j
      (by rw [← get_shape_eq]; exact hij)
    rw [← get_shape_eq] at hr
    have h2 := h (i : Int) (mem_int_range_incl.mpr ⟨hr.2.1, hr.2.2.2⟩)
      (j : Int) (mem_int_range_incl.mpr ⟨hr.1, hr.2.2.1⟩)
    rw [shapeAt_coe, hij] at h2
    simpa using h2
  · intro h i hi j hj
    by_cases hs : shapeAt p.get_shape i j = true
    · obtain ⟨i', j', hi', hj', hm⟩ := shapeAt_eq_true_elim hs
      have hgood := h i' j' hm
      rw [← hi', ← hj']
      rw [shapeAt_coe, hm, hgood.1, hgood.2]
      rfl
    · simp [Bool.eq_false_iff.mpr hs]

/-- If some occupied cell of the piece is out of bounds or covers an
occupied board cell, `check_collision` reports a collision. -/
lemma check_collision_true_of_bad (board : Board) (p : Tetromino) (i j : Fin 4)
    (hij : p.get_shape i j = true)
    (hbad : is_out_of_bounds (p.x + (j : Int)) (p.y + (i : Int)) = true ∨
      cellAt board (p.y + (i : Int)) (p.x + (j : Int)) = true) :
    check_collision board p = true := by
  by_contra h
  have h' : check_collision board p = false := by
    cases hc : check_collision board p
    · rfl
    · exact absurd hc h
  have := (check_collision_false_iff board p).mp h' i j hij
  rcases hbad with hb | hb <;> simp [hb] at this

/-- A non-colliding piece sits within a small window of positions. -/
lemma no_collision_pos_bounds (board : Board) (p : Tetromino)
    (h : check_collision board p = false) :
    -3 ≤ p.x ∧ p.x ≤ 9 ∧ -3 ≤ p.y ∧ p.y ≤ 19 := by
  obtain ⟨i, j, hij⟩ := shape_nonempty p.piece_type (rot_fin p)
  have hh := (check_collision_false_iff board p).mp h i j
    (by rw [get_shape_eq]; exact hij)
  have hoob := hh.1
  unfold is_out_of_bounds at hoob
  simp only [Bool.or_eq_false_iff, decide_eq_false_iff_not, not_lt, not_le] at hoob
  have h4i : (i : ℕ) < 4 := i.isLt
  have h4j : (j : ℕ) < 4 := j.isLt
  unfold BOARD_WIDTH BOARD_HEIGHT at hoob
  omega

/-- The definition `clear_lines` touches only the board and the score. -/
lemma clear_lines_fields (g : TetrisGame) :
    (clear_lines g).current_piece = g.current_piece ∧
    (clear_lines g).game_over = g.game_over ∧
    (clear_lines g).next_piece_type = g.next_piece_type := by
  unfold clear_lines
  rcases clear_scan g.board with ⟨b, c, w⟩
  simp

/-- The definition `spawn_piece` restores the invariant whenever it runs with no piece
installed (the only way the controller calls it). -/
lemma spawn_piece_inv (g : TetrisGame) (hcur : g.current_piece = none) :
    GameInv (spawn_piece g) := by
  unfold spawn_piece GameInv
  by_cases hgo : g.game_over
  · simp [hgo, hcur]
  · by_cases hc : check_collision g.board (Tetromino.new g.next_piece_type) = true
    · simp [hgo, hc, hcur]
    · obtain ⟨hb, hcp, hsc, hgo2, hnp⟩ := next_piece_from_bag_fields g
      have hc' : check_collision g.board (Tetromino.new g.next_piece_type) = false := by
        simpa using hc
      simp only [hgo, Bool.false_eq_true, if_false, hc', if_false]
      constructor
      · intro hcontr
        have hcontr2 : (next_piece_from_bag g).2.game_over = true := hcontr
        rw [hgo2] at hcontr2
        exact absurd hcontr2 hgo
      · intro p hp
        have hp2 : some (Tetromino.new g.next_piece_type) = some p := hp
        have hpe : Tetromino.new g.next_piece_type = p := by
          injection hp2
        show check_collision (next_piece_from_bag g).2.board p = false
        rw [hb, ← hpe]
        exact hc'

/-- Locking restores the invariant. -/
lemma lock_piece_inv (g : TetrisGame) (p : Tetromino)
    (hp : g.current_piece = some p) : GameInv (lock_piece g) := by
  unfold lock_piece
  rw [hp]
  exact spawn_piece_inv _ ((clear_lines_fields _).1.trans rfl)

/-- Committing a successfully tested new piece position keeps the
invariant. -/
lemma inv_commit (g : TetrisGame) (p' : Tetromino) (h : GameInv g)
    (hp : ∃ p, g.current_piece = some p)
    (hcol : check_collision g.board p' = false) :
    GameInv { g with current_piece := some p' } := by
  obtain ⟨p, hp⟩ := hp
  have hgo : g.game_over = false := by
    cases hgoc : g.game_over
    · rfl
    · rw [h.1 hgoc] at hp
      cases hp
  constructor
  · intro hcontr
    simp only at hcontr
    rw [hgo] at hcontr
    cases hcontr
  · intro q hq
    simp only [Option.some.injEq] at hq
    simpa [← hq] using hcol

/-- The definition `move_left` preserves the invariant. -/
lemma move_left_inv (g : TetrisGame) (h : GameInv g) :
    GameInv (move_left g).2 := by
  unfold move_left
  rcases hc : g.current_piece with _ | p
  · exact h
  · by_cases hcol : check_collision g.board { p with x := p.x - 1 } = true
    · simpa [hcol] using h
    · have hcol' : check_collision g.board { p with x := p.x - 1 } = false := by
        simpa using hcol
      simpa [hcol'] using inv_commit g _ h ⟨p, hc⟩ hcol'

/-- The definition `move_right` preserves the invariant. -/
lemma move_right_inv (g : TetrisGame) (h : GameInv g) :
    GameInv (move_right g).2 := by
  unfold move_right
  rcases hc : g.current_piece with _ | p
  · exact h
  · by_cases hcol : check_collision g.board { p with x := p.x + 1 } = true
    · simpa [hcol] using h
    · have hcol' : check_collision g.board { p with x := p.x + 1 } = false := by
        simpa using hcol
      simpa [hcol'] using inv_commit g _ h ⟨p, hc⟩ hcol'

/-- The definition `rotate` preserves the invariant. -/
lemma rotate_inv (g : TetrisGame) (h : GameInv g) :
    GameInv (rotate g).2 := by
  unfold rotate
  rcases hc : g.current_piece with _ | p
  · exact h
  · by_cases hcol :
        check_collision g.board { p with rotation := (p.rotation + 1) % 4 } = true
    · simpa [hcol] using h
    · have hcol' :
          check_collision g.board { p with rotation := (p.rotation + 1) % 4 } = false := by
        simpa using hcol
      simpa [hcol'] using inv_commit g _ h ⟨p, hc⟩ hcol'

/-- The definition `move_down` preserves the invariant, through either the move or the
lock path. -/
lemma move_down_inv (g : TetrisGame) (h : GameInv g) :
    GameInv (move_down g).2 := by
  unfold move_down
  rcases hc : g.current_piece with _ | p
  · exact h
  · by_cases hcol : check_collision g.board { p with y := p.y + 1 } = true
    · simpa [hcol] using lock_piece_inv g p hc
    · have hcol' : check_collision g.board { p with y := p.y + 1 } = false := by
        simpa using hcol
      simpa [hcol'] using inv_commit g _ h ⟨p, hc⟩ hcol'

/-- Every fueled run of the hard-drop loop preserves the invariant. -/
lemma hard_drop_fuel_inv :
    ∀ (n : Nat) (g : TetrisGame), GameInv g → GameInv (hard_drop_fuel n g) := by
  intro n
  induction n with
  | zero => intro g h; exact h
  | succ n ih =>
    intro g h
    unfold hard_drop_fuel
    have hmd := move_down_inv g h
    rcases hm : move_down g with ⟨moved, g'⟩
    rw [hm] at hmd
    cases moved
    · exact hmd
    · exact ih g' hmd

/-- The definition `reset` restores the invariant from any state. -/
lemma reset_inv (g : TetrisGame) : GameInv (reset g) :=
  spawn_piece_inv _ rfl

/-- A fresh game starts with no piece installed. -/
lemma new_game_current (seed : Nat) : (new_game seed).current_piece = none := by
  unfold new_game
  dsimp only
  rw [(next_piece_from_bag_fields _).2.1]

/-- The invariant holds in every reachable state. -/
lemma reachable_inv {g : TetrisGame} (h : Reachable g) : GameInv g := by
  induction h with
  | init seed => exact spawn_piece_inv _ (new_game_current seed)
  | left _ ih => exact move_left_inv _ ih
  | right _ ih => exact move_right_inv _ ih
  | down _ ih => exact move_down_inv _ ih
  | rot _ ih => exact rotate_inv _ ih
  | drop _ ih => exact hard_drop_fuel_inv 25 _ ih
  | reset_ _ ih => exact reset_inv _

/-- C5: when the freshly spawned piece already collides, `spawn_piece`
sets `game_over` and leaves no active piece; and in every reachable state,
`game_over` implies the active piece is absent. -/
theorem spawn_collision_game_over :
    (∀ g : TetrisGame, g.current_piece = none → g.game_over = false →
      check_collision g.board (Tetromino.new g.next_piece_type) = true →
      (spawn_piece g).game_over = true ∧ (spawn_piece g).current_piece = none) ∧
    (∀ g : TetrisGame, Reachable g → g.game_over = true →
      g.current_piece = none) := by
  constructor
  · intro g hcur hgo hcol
    unfold spawn_piece
    simp [hgo, hcol, hcur]
  · intro g hr hgo
    exact (reachable_inv hr).1 hgo

theorem spawn_collision_game_over_witness :
    (c5WitnessGame.current_piece = none ∧ c5WitnessGame.game_over = false ∧
      check_collision c5WitnessGame.board (Tetromino.new c5WitnessGame.next_piece_type) = true ∧
      ((spawn_piece c5WitnessGame).game_over = true ∧
        (spawn_piece c5WitnessGame).current_piece = none)) ∧
    (Reachable (spawn_piece (new_game 0)) ∧
      ((spawn_piece (new_game 0)).game_over = true →
        (spawn_piece (new_game 0)).current_piece = none)) :=
  ⟨⟨rfl, rfl, by decide,
      spawn_collision_game_over.1 c5WitnessGame rfl rfl (by decide)⟩,
    Reachable.init 0,
    spawn_collision_game_over.2 (spawn_piece (new_game 0)) (Reachable.init 0)⟩

/-- C10: in every reachable state, an active piece never collides: each of
its occupied cells lies inside the 10×20 board on an unoccupied board
cell. -/
theorem active_piece_never_collides (g : TetrisGame) (hr : Reachable g)
    (p : Tetromino) (hp : g.current_piece = some p) :
    check_collision g.board p = false ∧
    ∀ i j : Fin 4, p.get_shape i j = true →
      is_out_of_bounds (p.x + (j : Int)) (p.y + (i : Int)) = false ∧
      cellAt g.board (p.y + (i : Int)) (p.x + (j : Int)) = false := by
  have hc := (reachable_inv hr).2 p hp
  exact ⟨hc, (check_collision_false_iff _ _).mp hc⟩

theorem active_piece_never_collides_witness :
    Reachable (spawn_piece (new_game 0)) ∧
    (spawn_piece (new_game 0)).current_piece = some (Tetromino.new TetrominoType.Z) ∧
    (check_collision (spawn_piece (new_game 0)).board (Tetromino.new TetrominoType.Z) = false ∧
      ∀ i j : Fin 4, (Tetromino.new TetrominoType.Z).get_shape i j = true →
        is_out_of_bounds ((Tetromino.new TetrominoType.Z).x + (j : Int))
          ((Tetromino.new TetrominoType.Z).y + (i : Int)) = false ∧
        cellAt (spawn_piece (new_game 0)).board
          ((Tetromino.new TetrominoType.Z).y + (i : Int))
          ((Tetromino.new TetrominoType.Z).x + (j : Int)) = false) :=
  ⟨Reachable.init 0, by decide,
    active_piece_never_collides (spawn_piece (new_game 0)) (Reachable.init 0)
      (Tetromino.new TetrominoType.Z) (by decide)⟩

/-- Inversion of a successful soft drop. -/
lemma move_down_true_elim {g g' : TetrisGame}
    (h : move_down g = (true, g')) :
    ∃ p, g.current_piece = some p ∧
      check_collision g.board { p with y := p.y + 1 } = false ∧
      g' = { g with current_piece := some { p with y := p.y + 1 } } := by
  unfold move_down at h
  rcases hc : g.current_piece with _ | p
  · rw [hc] at h
    simp at h
  · rw [hc] at h
    by_cases hcol : check_collision g.board { p with y := p.y + 1 } = true
    · simp [hcol] at h
    · have hcol' : check_collision g.board { p with y := p.y + 1 } = false := by
        simpa using hcol
      refine ⟨p, rfl, hcol', ?_⟩
      simp only [hcol', Bool.not_false, if_true, Prod.mk.injEq, true_and] at h
      exact h.symm

/-- The hard-drop loop when the soft drop locked: the loop exits. -/
lemma hard_drop_fuel_step_false {g g' : TetrisGame}
    (hm : move_down g = (false, g')) (m : Nat) :
    hard_drop_fuel (m + 1) g = g' := by
  unfold hard_drop_fuel
  rw [hm]
  rfl

/-- The hard-drop loop when the soft drop moved: the loop continues. -/
lemma hard_drop_fuel_step_true {g g' : TetrisGame}
    (hm : move_down g = (true, g')) (m : Nat) :
    hard_drop_fuel (m + 1) g = hard_drop_fuel m g' := by
  conv_lhs => rw [hard_drop_fuel]
  rw [hm]
  rfl

/-- Once the piece is within `k` rows of the floor, `k` loop iterations are
as good as any larger number: the loop has locked by then. -/
lemma descent_stable :
    ∀ (k : Nat) (g : TetrisGame) (p : Tetromino),
      g.current_piece = some p → check_collision g.board p = false →
      (20 : Int) ≤ p.y + k →
      ∀ n : Nat, hard_drop_fuel (k + n) g = hard_drop_fuel k g := by
  intro k
  induction k with
  | zero =>
    intro g p hp hcol hk n
    have hb := no_collision_pos_bounds g.board p hcol
    exfalso
    omega
  | succ k ih =>
    intro g p hp hcol hk n
    rcases hm : move_down g with ⟨moved, g'⟩
    cases moved
    · rw [show k + 1 + n = (k + n) + 1 from by omega,
        hard_drop_fuel_step_false hm (k + n), hard_drop_fuel_step_false hm k]
    · obtain ⟨q, hq, hqcol, hg'⟩ := move_down_true_elim hm
      have hqp : q = p := by
        rw [hp] at hq
        injection hq with h
        exact h.symm
      rw [hqp] at hqcol hg'
      have hp' : g'.current_piece = some { p with y := p.y + 1 } := by rw [hg']
      have hcol' : check_collision g'.board { p with y := p.y + 1 } = false := by
        rw [hg']
        exact hqcol
      rw [show k + 1 + n = (k + n) + 1 from by omega,
        hard_drop_fuel_step_true hm (k + n), hard_drop_fuel_step_true hm k]
      refine ih g' _ hp' hcol' ?_ n
      show (20 : Int) ≤ p.y + 1 + (k : Int)
      push_cast at hk
      omega

/-- C4 (termination core): the hard-drop loop stabilizes within 25
iterations from any state. -/
lemma hard_drop_fuel_stable (g : TetrisGame) (n : Nat) :
    hard_drop_fuel (25 + n) g = hard_drop_fuel 25 g := by
  rcases hm : move_down g with ⟨moved, g'⟩
  cases moved
  · rw [show 25 + n = (24 + n) + 1 from by omega,
      hard_drop_fuel_step_false hm (24 + n),
      show (25 : Nat) = 24 + 1 from rfl, hard_drop_fuel_step_false hm 24]
  · obtain ⟨p, hp, hcol, hg'⟩ := move_down_true_elim hm
    have hbnd := no_collision_pos_bounds g.board _ hcol
    have hylow : (-3 : Int) ≤ p.y + 1 := hbnd.2.2.1
    have hp' : g'.current_piece = some { p with y := p.y + 1 } := by rw [hg']
    have hcol' : check_collision g'.board { p with y := p.y + 1 } = false := by
      rw [hg']
      exact hcol
    rw [show 25 + n = (24 + n) + 1 from by omega,
      hard_drop_fuel_step_true hm (24 + n),
      show (25 : Nat) = 24 + 1 from rfl, hard_drop_fuel_step_true hm 24]
    refine descent_stable 24 g' _ hp' hcol' ?_ n
    show (20 : Int) ≤ p.y + 1 + ((24 : Nat) : Int)
    push_cast
    omega

/-- Every cell of the empty board reads unoccupied. -/
lemma cellAt_empty (Y X : Int) : cellAt emptyBoard Y X = false := by
  unfold cellAt emptyBoard emptyRow
  rw [List.getD_eq_getElem?_getD
      (List.replicate BOARD_HEIGHT (List.replicate BOARD_WIDTH false)) Y.toNat,
    List.getElem?_replicate]
  split
  · show (List.replicate BOARD_WIDTH false).getD X.toNat false = false
    rw [List.getD_eq_getElem?_getD, List.getElem?_replicate]
    split <;> rfl
  · rfl

/-- Inversion of a reported collision: some occupied cell is out of bounds
or covers an occupied board cell. -/
lemma check_collision_true_elim {board : Board} {p : Tetromino}
    (h : check_collision board p = true) :
    ∃ i j : Fin 4, p.get_shape i j = true ∧
      (is_out_of_bounds (p.x + (j : Int)) (p.y + (i : Int)) = true ∨
       cellAt board (p.y + (i : Int)) (p.x + (j : Int)) = true) := by
  by_contra hc
  push_neg at hc
  have hfalse : check_collision board p = false := by
    rw [check_collision_false_iff]
    intro i j hij
    obtain ⟨h1, h2⟩ := hc i j hij
    exact ⟨by simpa using h1, by simpa using h2⟩
  rw [hfalse] at h
  cases h

/-- Reading with `getD` after setting a different index. -/
lemma getD_set_ne {α : Type} (l : List α) (i n : Nat) (a d : α) (h : i ≠ n) :
    (l.set i a).getD n d = l.getD n d := by
  rw [List.getD_eq_getElem?_getD, List.getElem?_set, if_neg h,
    ← List.getD_eq_getElem?_getD]

/-- Reading with `getD` after setting the same (in-range) index. -/
lemma getD_set_self {α : Type} (l : List α) (i : Nat) (a d : α)
    (h : i < l.length) : (l.set i a).getD i d = a := by
  rw [List.getD_eq_getElem?_getD, List.getElem?_set, if_pos rfl, if_pos h]
  rfl

/-- A cell write at a different column never changes the read. -/
lemma cellAt_setCellTrue_ne (b : Board) (Y0 X0 Y X : Int)
    (h0 : 0 ≤ X0) (hX : 0 ≤ X) (hne : X0 ≠ X) :
    cellAt (setCellTrue b Y0 X0) Y X = cellAt b Y X := by
  unfold cellAt setCellTrue
  have hxne : X0.toNat ≠ X.toNat := by omega
  by_cases hy : Y0.toNat = Y.toNat
  · by_cases hlen : Y0.toNat < b.length
    · rw [← hy, getD_set_self _ _ _ _ (by simpa using hlen),
        getD_set_ne _ _ _ _ _ hxne]
    · rw [List.set_eq_of_length_le (by omega)]
  · rw [getD_set_ne _ _ _ _ _ hy]

/-- The definition `setCellTrue` keeps the board's row count. -/
lemma setCellTrue_length (b : Board) (Y0 X0 : Int) :
    (setCellTrue b Y0 X0).length = b.length := by
  unfold setCellTrue
  exact List.length_set b _ _

/-- One stamping step never touches a column outside the piece's 4-wide
window, and keeps the row count. -/
lemma stamp_cell_outside (p : Tetromino) (b : Board) (i j : Int) (Y X : Int)
    (hX : 0 ≤ X) (hwin : ∀ jf : Fin 4, p.x + (jf : Int) ≠ X) :
    cellAt (stamp_cell p b i j) Y X = cellAt b Y X ∧
    (stamp_cell p b i j).length = b.length := by
  unfold stamp_cell
  by_cases hs : shapeAt p.get_shape i j = true
  · rw [if_pos hs]
    by_cases hoob : is_out_of_bounds (p.x + j) (p.y + i) = false
    · rw [hoob]
      obtain ⟨i', j', hi', hj', _⟩ := shapeAt_eq_true_elim hs
      have hxin : 0 ≤ p.x + j := by
        unfold is_out_of_bounds at hoob
        simp only [Bool.or_eq_false_iff, decide_eq_false_iff_not, not_lt,
          not_le] at hoob
        exact hoob.1.1.1
      have hne : p.x + j ≠ X := by
        rw [← hj']
        exact hwin j'
      exact ⟨cellAt_setCellTrue_ne b _ _ Y X hxin hX hne, setCellTrue_length b _ _⟩
    · have : is_out_of_bounds (p.x + j) (p.y + i) = true := by
        simpa using hoob
      rw [this]
      exact ⟨rfl, rfl⟩
  · rw [if_neg hs]
    exact ⟨rfl, rfl⟩

/-- The inner stamping fold over a row of the bounding box, outside the
window. -/
lemma stamp_fold_inner_outside (p : Tetromino) (i : Int) (Y X : Int)
    (hX : 0 ≤ X) (hwin : ∀ jf : Fin 4, p.x + (jf : Int) ≠ X) :
    ∀ (js : List Int) (b : Board),
      cellAt (js.foldl (fun bb j => stamp_cell p bb i j) b) Y X = cellAt b Y X ∧
      (js.foldl (fun bb j => stamp_cell p bb i j) b).length = b.length := by
  intro js
  induction js with
  | nil => intro b; exact ⟨rfl, rfl⟩
  | cons j js ih =>
    intro b
    rw [List.foldl_cons]
    obtain ⟨h1, h2⟩ := ih (stamp_cell p b i j)
    obtain ⟨h3, h4⟩ := stamp_cell_outside p b i j Y X hX hwin
    exact ⟨h1.trans h3, h2.trans h4⟩

/-- The whole stamping loop, outside the window: nothing changes. -/
lemma stamp_board_outside (p : Tetromino) (b : Board) (Y X : Int)
    (hX : 0 ≤ X) (hwin : ∀ jf : Fin 4, p.x + (jf : Int) ≠ X) :
    cellAt (stamp_board b p) Y X = cellAt b Y X ∧
    (stamp_board b p).length = b.length := by
  unfold stamp_board
  dsimp only
  generalize int_range_incl (get_bounds p.get_shape).2.1
    (get_bounds p.get_shape).2.2.2 = is
  generalize int_range_incl (get_bounds p.get_shape).1
    (get_bounds p.get_shape).2.2.1 = js
  induction is generalizing b with
  | nil => exact ⟨rfl, rfl⟩
  | cons i is ih =>
    rw [List.foldl_cons]
    obtain ⟨h1, h2⟩ := ih (js.foldl (fun bb j => stamp_cell p bb i j) b)
    obtain ⟨h3, h4⟩ := stamp_fold_inner_outside p i Y X hX hwin js b
    exact ⟨h1.trans h3, h2.trans h4⟩

/-- One stamping step keeps the row count. -/
lemma stamp_cell_length (p : Tetromino) (b : Board) (i j : Int) :
    (stamp_cell p b i j).length = b.length := by
  unfold stamp_cell
  split
  · split
    · exact setCellTrue_length b _ _
    · rfl
  · rfl

/-- The inner stamping fold keeps the row count. -/
lemma stamp_row_length (p : Tetromino) (i : Int) :
    ∀ (js : List Int) (b : Board),
      (js.foldl (fun bb j => stamp_cell p bb i j) b).length = b.length := by
  intro js
  induction js with
  | nil => intro b; rfl
  | cons j js ih =>
    intro b
    rw [List.foldl_cons]
    exact (ih _).trans (stamp_cell_length p b i j)

/-- Stamping keeps the row count. -/
lemma stamp_board_length (b : Board) (p : Tetromino) :
    (stamp_board b p).length = b.length := by
  unfold stamp_board
  dsimp only
  generalize int_range_incl (get_bounds p.get_shape).2.1
    (get_bounds p.get_shape).2.2.2 = is
  generalize int_range_incl (get_bounds p.get_shape).1
    (get_bounds p.get_shape).2.2.1 = js
  induction is generalizing b with
  | nil => rfl
  | cons i is ih =>
    rw [List.foldl_cons]
    exact (ih _).trans (stamp_row_length p i js b)

/-- A single piece stamped onto the empty board can never complete a row:
its footprint spans at most 4 of the 10 columns. -/
lemma stamp_empty_no_full (p : Tetromino) :
    ∀ r ∈ stamp_board emptyBoard p, row_full r = false := by
  have hex : ∃ c : Int, 0 ≤ c ∧ c < 10 ∧
      ∀ jf : Fin 4, p.x + (jf : Int) ≠ c := by
    by_cases hx : 1 ≤ p.x
    · exact ⟨0, le_refl _, by norm_num,
        fun jf => by have := jf.isLt; omega⟩
    · exact ⟨4, by norm_num, by norm_num,
        fun jf => by have := jf.isLt; omega⟩
  obtain ⟨c, hc0, hc10, hwin⟩ := hex
  intro r hr
  obtain ⟨y, hy, hyr⟩ := List.mem_iff_getElem.mp hr
  have hcell := (stamp_board_outside p emptyBoard (y : Int) c hc0 hwin).1
  rw [cellAt_empty] at hcell
  have hrow : (stamp_board emptyBoard p).getD ((y : Int)).toNat [] = r := by
    rw [Int.toNat_natCast, List.getD_eq_getElem _ _ hy, hyr]
  unfold cellAt at hcell
  rw [hrow] at hcell
  cases hf : row_full r
  · rfl
  · exfalso
    unfold row_full at hf
    rw [List.all_eq_true] at hf
    have := hf c.toNat (List.mem_range.mpr (by unfold BOARD_WIDTH; omega))
    rw [hcell] at this
    cases this

/-- When no row is full, `clear_lines` leaves the board unchanged. -/
lemma clear_lines_no_full (g : TetrisGame) (hb : g.board.length = BOARD_HEIGHT)
    (hnf : ∀ r ∈ g.board, row_full r = false) :
    (clear_lines g).board = g.board := by
  obtain ⟨B, hscan, hlen, hdrop, hcount⟩ := clear_scan_spec g.board hb
  have hk : full_row_count g.board = 0 := by
    unfold full_row_count
    rw [List.countP_eq_length_filter]
    have : g.board.filter row_full = [] := by
      rw [List.filter_eq_nil_iff]
      intro a ha
      rw [hnf a ha]
      exact Bool.false_ne_true
    rw [this]
    rfl
  rw [hcount] at hdrop
  rw [hk] at hdrop hcount
  unfold clear_lines
  rw [hscan]
  dsimp only
  rw [zero_fill_eq _ _ (by rw [hlen]; omega), hcount, hdrop]
  rw [List.drop_zero] at hdrop
  rw [List.replicate_zero, List.nil_append]
  exact List.filter_eq_self.mpr fun a ha => by rw [hnf a ha]; rfl

/-- Spawning never changes the board. -/
lemma spawn_piece_board (g : TetrisGame) : (spawn_piece g).board = g.board := by
  unfold spawn_piece
  split
  · rfl
  · dsimp only
    split
    · rfl
    · exact (next_piece_from_bag_fields g).1

/-- After spawning, the active piece is either what it was or a freshly
constructed piece at the canonical spawn position. -/
lemma spawn_piece_current (g : TetrisGame) :
    (spawn_piece g).current_piece = g.current_piece ∨
    (spawn_piece g).current_piece = some (Tetromino.new g.next_piece_type) := by
  unfold spawn_piece
  split
  · exact Or.inl rfl
  · dsimp only
    split
    · exact Or.inl rfl
    · exact Or.inr rfl

/-- Descent analysis of the hard-drop loop on the empty board: with enough
fuel to reach the floor, the loop locks the piece at some row `y'` below
its start, where it fits but one row further down it would not. -/
lemma hard_drop_empty_descent :
    ∀ (k : Nat) (g : TetrisGame) (p : Tetromino),
      g.board = emptyBoard → g.current_piece = some p →
      check_collision emptyBoard p = false → (20 : Int) ≤ p.y + k →
      ∃ y' : Int, p.y ≤ y' ∧
        check_collision emptyBoard { p with y := y' } = false ∧
        check_collision emptyBoard { p with y := y' + 1 } = true ∧
        hard_drop_fuel k g =
          spawn_piece (clear_lines
            { g with
              current_piece := none
              board := stamp_board emptyBoard { p with y := y' } }) := by
  intro k
  induction k with
  | zero =>
    intro g p hb hp hcol hk
    exfalso
    have := no_collision_pos_bounds emptyBoard p hcol
    omega
  | succ k ih =>
    intro g p hb hp hcol hk
    by_cases hdown : check_collision emptyBoard { p with y := p.y + 1 } = true
    · have hm : move_down g = (false, lock_piece g) := by
        simp [move_down, hp, hb, hdown]
      refine ⟨p.y, le_refl _, hcol, hdown, ?_⟩
      rw [hard_drop_fuel_step_false hm k]
      unfold lock_piece
      rw [hp, hb]
    · have hdown' : check_collision emptyBoard { p with y := p.y + 1 } = false := by
        simpa using hdown
      have hm : move_down g =
          (true, { g with current_piece := some { p with y := p.y + 1 } }) := by
        simp [move_down, hp, hb, hdown']
      obtain ⟨y', h1, h2, h3, h4⟩ :=
        ih { g with current_piece := some { p with y := p.y + 1 } }
          { p with y := p.y + 1 } hb rfl hdown'
          (by show (20 : Int) ≤ p.y + 1 + (k : Int); push_cast at hk; omega)
      have h1' : p.y + 1 ≤ y' := h1
      refine ⟨y', by omega, h2, h3, ?_⟩
      rw [hard_drop_fuel_step_true hm k]
      exact h4

set_option maxHeartbeats 1600000 in
/-- C4: the hard-drop loop terminates — 25 iterations always reach the
locked state, so any extra fuel changes nothing — and on an empty board it
locks the dropped piece at the lowest row where it does not collide (every
strictly lower position collides), leaving the board stamped there and the
freshly spawned piece (if any) at its spawn position rather than dropped. -/
theorem hard_drop_terminates_and_locks :
    (∀ (g : TetrisGame) (n : Nat), hard_drop_fuel (25 + n) g = hard_drop g) ∧
    (∀ (g : TetrisGame) (p : Tetromino),
      g.board = emptyBoard → g.current_piece = some p →
      check_collision emptyBoard p = false →
      ∃ y' : Int, p.y ≤ y' ∧
        check_collision emptyBoard { p with y := y' } = false ∧
        (∀ z : Int, y' < z → check_collision emptyBoard { p with y := z } = true) ∧
        (hard_drop g).board = stamp_board emptyBoard { p with y := y' } ∧
        ((hard_drop g).current_piece = none ∨
          ∃ t, (hard_drop g).current_piece = some (Tetromino.new t))) := by
  constructor
  · intro g n
    exact hard_drop_fuel_stable g n
  · intro g p hb hp hcol
    have hbnd := no_collision_pos_bounds emptyBoard p hcol
    obtain ⟨y', h1, h2, h3, h4⟩ :=
      hard_drop_empty_descent 25 g p hb hp hcol (by push_cast; omega)
    have hlen : (stamp_board emptyBoard { p with y := y' }).length = BOARD_HEIGHT := by
      rw [stamp_board_length]
      unfold emptyBoard
      exact List.length_replicate _ _
    refine ⟨y', h1, h2, ?_, ?_, ?_⟩
    · intro z hz
      obtain ⟨i, j, hij, hbad⟩ := check_collision_true_elim h3
      rcases hbad with hoob | hcell
      · have hgood :=
          (check_collision_false_iff emptyBoard { p with y := y' }).mp h2 i j hij
        apply check_collision_true_of_bad emptyBoard { p with y := z } i j hij
        left
        have hg1 := hgood.1
        unfold is_out_of_bounds at hg1 hoob ⊢
        simp only [Bool.or_eq_false_iff, decide_eq_false_iff_not, not_lt,
          not_le] at hg1
        simp only [Bool.or_eq_true, decide_eq_true_eq] at hoob ⊢
        unfold BOARD_WIDTH BOARD_HEIGHT at hg1 hoob ⊢
        omega
      · rw [cellAt_empty] at hcell
        cases hcell
    · show (hard_drop_fuel 25 g).board = _
      rw [h4, spawn_piece_board,
        clear_lines_no_full _ hlen (stamp_empty_no_full _)]
    · show (hard_drop_fuel 25 g).current_piece = none ∨
        ∃ t, (hard_drop_fuel 25 g).current_piece = some (Tetromino.new t)
      rw [h4]
      rcases spawn_piece_current (clear_lines
        { g with
          current_piece := none
          board := stamp_board emptyBoard { p with y := y' } }) with h | h
      · left
        rw [h, (clear_lines_fields _).1]
      · right
        exact ⟨_, h⟩

theorem hard_drop_terminates_and_locks_witness :
    (spawn_piece (new_game 0)).board = emptyBoard ∧
    (spawn_piece (new_game 0)).current_piece = some (Tetromino.new TetrominoType.Z) ∧
    check_collision emptyBoard (Tetromino.new TetrominoType.Z) = false ∧
    (∃ y' : Int, (Tetromino.new TetrominoType.Z).y ≤ y' ∧
      check_collision emptyBoard { Tetromino.new TetrominoType.Z with y := y' } = false ∧
      (∀ z : Int, y' < z →
        check_collision emptyBoard { Tetromino.new TetrominoType.Z with y := z } = true) ∧
      (hard_drop (spawn_piece (new_game 0))).board =
        stamp_board emptyBoard { Tetromino.new TetrominoType.Z with y := y' } ∧
      ((hard_drop (spawn_piece (new_game 0))).current_piece = none ∨
        ∃ t, (hard_drop (spawn_piece (new_game 0))).current_piece =
          some (Tetromino.new t))) :=
  ⟨by decide, by decide, by decide,
    hard_drop_terminates_and_locks.2 (spawn_piece (new_game 0))
      (Tetromino.new TetrominoType.Z) (by decide) (by decide) (by decide)⟩

/-- The write loop preserves capacity, never backs up, and never passes
the end. -/
lemma write_bytes_loop_spec :
    ∀ (bytes : List Nat) (buffer : List Nat) (pos written : Nat),
      pos + written ≤ buffer.length →
      (write_bytes_loop buffer pos bytes written).1.length = buffer.length ∧
      pos + (write_bytes_loop buffer pos bytes written).2 ≤ buffer.length := by
  intro bytes
  induction bytes with
  | nil =>
    intro buffer pos written h
    exact ⟨rfl, h⟩
  | cons byte rest ih =>
    intro buffer pos written h
    unfold write_bytes_loop
    by_cases hlt : pos + written < buffer.length
    · rw [if_pos hlt]
      have := ih (buffer.set (pos + written) byte) pos (written + 1)
        (by rw [List.length_set]; omega)
      rw [List.length_set] at this
      exact this
    · rw [if_neg hlt]
      exact ⟨rfl, h⟩

/-- Exact count of the write loop: it writes until the bytes run out or
the buffer is full. -/
lemma write_bytes_loop_count :
    ∀ (bytes : List Nat) (buffer : List Nat) (pos written : Nat),
      pos + written ≤ buffer.length →
      (write_bytes_loop buffer pos bytes written).2 =
        written + min bytes.length (buffer.length - pos - written) := by
  intro bytes
  induction bytes with
  | nil =>
    intro buffer pos written h
    simp [write_bytes_loop]
  | cons byte rest ih =>
    intro buffer pos written h
    unfold write_bytes_loop
    by_cases hlt : pos + written < buffer.length
    · rw [if_pos hlt]
      rw [ih (buffer.set (pos + written) byte) pos (written + 1)
        (by rw [List.length_set]; omega)]
      rw [List.length_set]
      simp only [List.length_cons]
      omega
    · rw [if_neg hlt]
      simp only [List.length_cons]
      omega

/-- The digit-write loop preserves capacity and never passes the end. -/
lemma write_digits_loop_spec :
    ∀ (ds : List Nat) (buffer : List Nat) (pos written : Nat),
      pos + written ≤ buffer.length →
      (write_digits_loop buffer pos ds written).1.length = buffer.length ∧
      pos + (write_digits_loop buffer pos ds written).2 ≤ buffer.length := by
  intro ds
  induction ds with
  | nil =>
    intro buffer pos written h
    exact ⟨rfl, h⟩
  | cons d rest ih =>
    intro buffer pos written h
    unfold write_digits_loop
    by_cases hlt : pos + written < buffer.length
    · rw [if_pos hlt]
      have := ih (buffer.set (pos + written) d) pos (written + 1)
        (by rw [List.length_set]; omega)
      rw [List.length_set] at this
      exact this
    · rw [if_neg hlt]
      exact ih buffer pos written h

/-- Once the cursor reached the end, the digit-write loop does nothing. -/
lemma write_digits_loop_full :
    ∀ (ds : List Nat) (buffer : List Nat) (pos written : Nat),
      buffer.length ≤ pos + written →
      write_digits_loop buffer pos ds written = (buffer, written) := by
  intro ds
  induction ds with
  | nil => intro buffer pos written _; rfl
  | cons d rest ih =>
    intro buffer pos written h
    unfold write_digits_loop
    rw [if_neg (by omega)]
    exact ih buffer pos written h

/-- A byte-string write keeps the invariant. -/
lemma wr_inv {L : Nat} (st : List Nat × Nat) (bytes : List Nat)
    (h : BufInv L st) : BufInv L (wr st bytes) := by
  obtain ⟨h1, h2⟩ := h
  obtain ⟨hl, hp⟩ := write_bytes_loop_spec bytes st.1 st.2 0 (by omega)
  constructor
  · show (write_bytes_loop st.1 st.2 bytes 0).1.length = L
    rw [hl, h1]
  · show st.2 + (write_bytes_loop st.1 st.2 bytes 0).2 ≤ L
    rw [← h1]
    omega

/-- The exact cursor after a byte-string write. -/
lemma wr_count {L : Nat} (st : List Nat × Nat) (bytes : List Nat)
    (h : BufInv L st) : (wr st bytes).2 = min (st.2 + bytes.length) L := by
  obtain ⟨h1, h2⟩ := h
  show st.2 + (write_bytes_loop st.1 st.2 bytes 0).2 = _
  rw [write_bytes_loop_count bytes st.1 st.2 0 (by omega), h1]
  omega

/-- A byte-string write at a full buffer leaves the cursor at the end. -/
lemma wr_full {L : Nat} (st : List Nat × Nat) (bytes : List Nat)
    (h1 : st.1.length = L) (h2 : st.2 = L) :
    (wr st bytes).1.length = L ∧ (wr st bytes).2 = L := by
  refine ⟨(wr_inv st bytes ⟨h1, by omega⟩).1, ?_⟩
  rw [wr_count st bytes ⟨h1, by omega⟩]
  omega

/-- A number write keeps the invariant. -/
lemma wrnum_inv {L : Nat} (st : List Nat × Nat) (num : Nat)
    (h : BufInv L st) : BufInv L (wrnum st num) := by
  obtain ⟨h1, h2⟩ := h
  obtain ⟨hl, hp⟩ := write_digits_loop_spec
    ((if num = 0 then [48] else digits_loop num 10).reverse) st.1 st.2 0 (by omega)
  constructor
  · show (write_digits_loop st.1 st.2
      ((if num = 0 then [48] else digits_loop num 10).reverse) 0).1.length = L
    rw [hl, h1]
  · show st.2 + (write_digits_loop st.1 st.2
      ((if num = 0 then [48] else digits_loop num 10).reverse) 0).2 ≤ L
    rw [← h1]
    omega

/-- A number write at a full buffer leaves the cursor at the end. -/
lemma wrnum_full {L : Nat} (st : List Nat × Nat) (num : Nat)
    (h1 : st.1.length = L) (h2 : st.2 = L) :
    (wrnum st num).1.length = L ∧ (wrnum st num).2 = L := by
  show (write_digits_loop st.1 st.2 _ 0).1.length = L ∧
    st.2 + (write_digits_loop st.1 st.2 _ 0).2 = L
  rw [write_digits_loop_full _ st.1 st.2 0 (by omega)]
  exact ⟨h1, by omega⟩

/-- The doubled-horizontal border run advances the cursor by 6 per column,
clipped at the capacity. -/
lemma border_fold_aux {L : Nat} :
    ∀ (l : List Nat) (st : List Nat × Nat), BufInv L st →
      BufInv L (l.foldl (fun st _ => wr (wr st horizontal_g) horizontal_g) st) ∧
      (l.foldl (fun st _ => wr (wr st horizontal_g) horizontal_g) st).2 =
        min (st.2 + 6 * l.length) L := by
  intro l
  induction l with
  | nil =>
    intro st h
    refine ⟨h, ?_⟩
    have := h.2
    simp
    omega
  | cons a l ih =>
    intro st h
    have h1 : BufInv L (wr st horizontal_g) := wr_inv _ _ h
    have hst1 : BufInv L (wr (wr st horizontal_g) horizontal_g) :=
      wr_inv _ _ h1
    have hc1 : (wr st horizontal_g).2 = min (st.2 + 3) L := wr_count _ _ h
    have hc2 : (wr (wr st horizontal_g) horizontal_g).2 =
        min ((wr st horizontal_g).2 + 3) L := wr_count _ _ h1
    obtain ⟨hinv, hcount⟩ := ih _ hst1
    rw [List.foldl_cons]
    refine ⟨hinv, ?_⟩
    rw [hcount, hc2, hc1, List.length_cons]
    have hL := h.2
    omega

lemma render_border_fold_count {L : Nat} (st : List Nat × Nat)
    (h : BufInv L st) :
    BufInv L (render_border_fold st) ∧
    (render_border_fold st).2 = min (st.2 + 6 * BOARD_WIDTH) L := by
  unfold render_border_fold
  have := border_fold_aux (List.range BOARD_WIDTH) st h
  rwa [List.length_range] at this

/-- A row render keeps the invariant, and keeps the cursor at the end of a
full buffer. -/
lemma render_row_inv {L : Nat} (st : List Nat × Nat) (row : List Bool)
    (h : BufInv L st) : BufInv L (render_row st row) := by
  unfold render_row
  apply wr_inv
  have : BufInv L (wr st left_border_g) := wr_inv _ _ h
  generalize (wr st left_border_g) = st1 at this
  induction row generalizing st1 with
  | nil => exact this
  | cons c cs ih =>
    rw [List.foldl_cons]
    exact ih _ (wr_inv _ _ this)

lemma render_row_full {L : Nat} (st : List Nat × Nat) (row : List Bool)
    (h1 : st.1.length = L) (h2 : st.2 = L) :
    (render_row st row).1.length = L ∧ (render_row st row).2 = L := by
  unfold render_row
  have hlb := wr_full st left_border_g h1 h2
  have hfold : ∀ (cs : List Bool) (st1 : List Nat × Nat),
      st1.1.length = L → st1.2 = L →
      (cs.foldl (fun st cell => wr st (if cell then filled_g else empty_g)) st1).1.length = L ∧
      (cs.foldl (fun st cell => wr st (if cell then filled_g else empty_g)) st1).2 = L := by
    intro cs
    induction cs with
    | nil => intro st1 a b; exact ⟨a, b⟩
    | cons c cs ih =>
      intro st1 a b
      rw [List.foldl_cons]
      have := wr_full st1 (if c then filled_g else empty_g) a b
      exact ih _ this.1 this.2
  have h3 := hfold row _ hlb.1 hlb.2
  exact wr_full _ right_border_g h3.1 h3.2

/-- Rendering the rows keeps the invariant. -/
lemma render_rows_inv {L : Nat} (db : Board) :
    ∀ (st : List Nat × Nat), BufInv L st → BufInv L (render_rows st db) := by
  unfold render_rows
  induction db with
  | nil => intro st h; exact h
  | cons r rs ih =>
    intro st h
    rw [List.foldl_cons]
    exact ih _ (render_row_inv _ _ h)

lemma render_rows_full {L : Nat} (db : Board) :
    ∀ (st : List Nat × Nat), st.1.length = L → st.2 = L →
      (render_rows st db).1.length = L ∧ (render_rows st db).2 = L := by
  unfold render_rows
  induction db with
  | nil => intro st a b; exact ⟨a, b⟩
  | cons r rs ih =>
    intro st a b
    rw [List.foldl_cons]
    have := render_row_full st r a b
    exact ih _ this.1 this.2

/-- C7: rendering never writes past the buffer — the returned byte count
never exceeds the capacity and the buffer keeps its length (writes are
bounds-checked and silently truncated) — and rendering into a buffer of
capacity 10 returns exactly 10 bytes written, for every game state. -/
theorem render_to_buffer_bounded :
    (∀ (g : TetrisGame) (buffer : List Nat),
      (render_to_buffer g buffer).2 ≤ buffer.length ∧
      (render_to_buffer g buffer).1.length = buffer.length) ∧
    (∀ (g : TetrisGame) (buffer : List Nat), buffer.length = 10 →
      (render_to_buffer g buffer).2 = 10) := by
  have main : ∀ (g : TetrisGame) (buffer : List Nat),
      BufInv buffer.length (render_to_buffer g buffer) ∧
      (buffer.length = 10 → (render_to_buffer g buffer).2 = 10) := by
    intro g buffer
    set L := buffer.length with hL
    unfold render_to_buffer
    dsimp only
    set db : Board := (match g.current_piece with
      | some piece => stamp_board g.board piece
      | none => g.board) with hdb
    have h0 : BufInv L ((buffer.map fun _ => 32, 0) : List Nat × Nat) :=
      ⟨List.length_map _ _, by omega⟩
    have h1 := wr_inv _ top_border_g h0
    obtain ⟨h2, h2c⟩ := render_border_fold_count _ h1
    have h3 := wr_inv _ top_right_g h2
    have h4 := render_rows_inv db _ h3
    have h5 := wr_inv _ bottom_left_g h4
    obtain ⟨h6, h6c⟩ := render_border_fold_count _ h5
    have h7 := wr_inv _ bottom_right_g h6
    have h8 := wr_inv _ score_label_g h7
    have h9 := wrnum_inv _ g.score h8
    have h10 := wr_inv _ newline_g h9
    have h11 : BufInv L (if g.game_over = true
        then wr (wr (wrnum (wr (wr (render_border_fold (wr (render_rows
          (wr (render_border_fold (wr ((buffer.map fun _ => 32 : List Nat), 0)
            top_border_g)) top_right_g) db) bottom_left_g)) bottom_right_g)
          score_label_g) g.score) newline_g) game_over_g
        else wr (wrnum (wr (wr (render_border_fold (wr (render_rows
          (wr (render_border_fold (wr ((buffer.map fun _ => 32 : List Nat), 0)
            top_border_g)) top_right_g) db) bottom_left_g)) bottom_right_g)
          score_label_g) g.score) newline_g) := by
      split
      · exact wr_inv _ game_over_g h10
      · exact h10
    refine ⟨h11, ?_⟩
    intro hten
    -- with capacity 10 the cursor reaches the end inside the top border
    have hc1 : (wr ((buffer.map fun _ => 32 : List Nat), 0) top_border_g).2 =
        min 3 L := by
      rw [wr_count _ _ h0]
      rfl
    have hfull2 : (render_border_fold (wr ((buffer.map fun _ => 32 :
        List Nat), 0) top_border_g)).2 = L := by
      rw [h2c, hc1]
      unfold BOARD_WIDTH
      omega
    have f3 := wr_full _ top_right_g h2.1 hfull2
    have f4 := render_rows_full db _ f3.1 f3.2
    have f5 := wr_full _ bottom_left_g f4.1 f4.2
    have f6c := render_border_fold_count _ ⟨f5.1, by omega⟩
    have hfull6 : (render_border_fold (wr (render_rows
        (wr (render_border_fold (wr ((buffer.map fun _ => 32 : List Nat), 0)
          top_border_g)) top_right_g) db) bottom_left_g)).2 = L := by
      rw [f6c.2, f5.2]
      omega
    have f7 := wr_full _ bottom_right_g f6c.1.1 hfull6
    have f8 := wr_full _ score_label_g f7.1 f7.2
    have f9 := wrnum_full _ g.score f8.1 f8.2
    have f10 := wr_full _ newline_g f9.1 f9.2
    split
    · rw [(wr_full _ game_over_g f10.1 f10.2).2, hten]
    · rw [f10.2, hten]
  constructor
  · intro g buffer
    obtain ⟨⟨ha, hb⟩, _⟩ := main g buffer
    exact ⟨hb, ha⟩
  · intro g buffer hten
    exact (main g buffer).2 hten

theorem render_to_buffer_bounded_witness :
    (List.replicate 10 (0 : Nat)).length = 10 ∧
    (render_to_buffer c3WitnessGame (List.replicate 10 (0 : Nat))).2 = 10 :=
  ⟨rfl, render_to_buffer_bounded.2 c3WitnessGame (List.replicate 10 0) rfl⟩

end Tetris
